import Mathlib

/-!
Shallow embedding of the fcopy repository (a fuzzy path resolver and a
concurrent file-ingestion pipeline written in Go) together with proofs
about the embedded definitions.

Strings are modelled as lists of characters (`Str`), Go `int`/`int64`
values as `Int` where sign matters and as `Nat` where the source only
ever holds non-negative counts.  Each definition below is a direct
translation of the Go function named in its comment.
-/

set_option maxHeartbeats 1600000

/-- Go strings, modelled as lists of characters. -/
abbrev Str := List Char

/-- Convenience conversion from Lean string literals. -/
def str (s : String) : Str := s.toList

/-- strings.ToLower (per character; the source only compares ASCII names). -/
def toLower (s : Str) : Str := s.map Char.toLower

/-- Helper for strings.Contains: does `p` occur at the start of `s`? -/
def startsWith : Str → Str → Bool
  | _, [] => true
  | [], _ :: _ => false
  | c :: s, d :: p => c = d && startsWith s p

/-- strings.Contains s sub: does `sub` occur somewhere inside `s`? -/
def strContains : Str → Str → Bool
  | [], sub => sub.isEmpty
  | c :: s, sub => startsWith (c :: s) sub || strContains s sub

/-- strings.HasSuffix s pat. -/
def endsWith (s pat : Str) : Bool := startsWith s.reverse pat.reverse

/-- Helper for filepath.Ext: scan the reversed name up to the first dot. -/
def extRevAux : Str → Option Str
  | [] => none
  | c :: rest => if c = '.' then some ['.'] else (extRevAux rest).map (fun e => c :: e)

/-- filepath.Ext on a base name: the suffix starting at the final dot
(including the dot), or the empty string when there is no dot. -/
def fileExt (name : Str) : Str := ((extRevAux name.reverse).getD []).reverse

/-- filepath.Base for the slash-separated model paths used here:
the segment after the last separator. -/
def baseName (p : Str) : Str := (p.reverse.takeWhile (fun c => c ≠ '/')).reverse

/-- filepath.Join for the model paths used here. -/
def pathJoin (d n : Str) : Str := d ++ '/' :: n

/-- utils.Min from the source: the minimum of three integers. -/
def goMin (a b c : Nat) : Nat :=
  if a < b then (if a < c then a else c)
  else (if b < c then b else c)

/-- utils.Abs from the source. -/
def goAbs (n : Int) : Int := if n < 0 then -n else n

/-- The initialisation loop of CalculateSimilarity: v0[i] = i, written as
the list k, k+1, ..., k+n-1 starting from k = 0. -/
def initRow : Nat → Nat → List Nat
  | _, 0 => []
  | k, n + 1 => k :: initRow (k + 1) n

/-- The inner loop of CalculateSimilarity: given the previous row `v0`
(from position j onwards), the value `left` just written at position j of
the new row, and the remaining characters of s2, produce the rest of the
new row: v1[j+1] = Min(v1[j]+1, v0[j+1]+1, v0[j]+cost). -/
def nextRowGo (c : Char) : Nat → List Nat → Str → List Nat
  | left, v0j :: v0j1 :: v0rest, ch :: s2rest =>
      let cost := if c = ch then 0 else 1
      let v := goMin (left + 1) (v0j1 + 1) (v0j + cost)
      v :: nextRowGo c v (v0j1 :: v0rest) s2rest
  | _, _, _ => []

/-- One iteration of the outer loop of CalculateSimilarity: v1[0] = i+1,
then the inner loop fills the rest of the row. -/
def nextRow (v0 : List Nat) (c : Char) (s2 : Str) (i : Nat) : List Nat :=
  (i + 1) :: nextRowGo c (i + 1) v0 s2

/-- The outer loop of CalculateSimilarity over the characters of s1,
carrying the current row and the index i. -/
def simLoop (s2 : Str) : List Nat → Str → Nat → List Nat
  | v0, [], _ => v0
  | v0, c :: cs, i => simLoop s2 (nextRow v0 c s2 i) cs (i + 1)

/-- utils.CalculateSimilarity: the two-row Levenshtein distance
implementation from the source, returning v1[len(s2)]. -/
def calculateSimilarity (s1 s2 : Str) : Nat :=
  if s1.length = 0 then s2.length
  else if s2.length = 0 then s1.length
  else
    let v0 := initRow 0 (s2.length + 1)
    let vfin := simLoop s2 v0 s1 0
    vfin.getD s2.length 0

/-- Unit substitution cost of the classic Levenshtein distance. -/
def levCost (x y : Char) : Nat := if x = y then 0 else 1

/-- The classic unit-cost Levenshtein edit distance (insertions,
deletions, substitutions, unit cost each), stated from the
specification's words as the usual recursive definition. -/
def levSpec : Str → Str → Nat
  | [], ys => ys.length
  | x :: xs, [] => (x :: xs).length
  | x :: xs, y :: ys =>
      min (levSpec xs (y :: ys) + 1)
        (min (levSpec (x :: xs) ys + 1) (levSpec xs ys + levCost x y))
termination_by xs ys => (xs.length, ys.length)

/-- Row of specification distances used to verify the rolling-row loop:
for the processed (reversed) part `R` of s1, one entry per position of
s2, the entry for position j being the distance between `R` and the
reversal of the first j characters of s2 (accumulated in `revPre`). -/
def rowFrom (R : Str) (revPre : Str) : Str → List Nat
  | [] => [levSpec R revPre]
  | ch :: rest => levSpec R revPre :: rowFrom R (ch :: revPre) rest

/-- config.Config, restricted to the fields the core logic reads.
Timeout, Debug and the log handles are operational collaborators and do
not appear in any embedded function. -/
structure Config where
  maxFileSize : Int
  workers : Nat
  verbose : Bool
  maxMatches : Nat
  searchDepth : Int
  autoSelect : Bool
  searchHidden : Bool
  noIgnore : Bool
deriving DecidableEq

/-- config.IgnoreDirs: directory names to skip during search. -/
def ignoreDirs : List Str :=
  [str "node_modules", str ".git", str ".svn", str ".hg", str "dist",
   str "build", str "out", str "target", str "bin", str "obj",
   str ".idea", str ".vscode", str ".vs", str "vendor",
   str "bower_components", str "jspm_packages", str "tmp", str "temp",
   str "logs", str "log", str ".npm", str "coverage", str ".next",
   str ".nuxt", str ".cache", str ".parcel-cache"]

/-- config.IgnoreExts: file extensions / name suffixes to skip. -/
def ignoreExts : List Str :=
  [str ".log", str ".lock", str ".min.js", str ".min.css", str ".map",
   str ".DS_Store", str "Thumbs.db", str ".gitignore",
   str ".gitattributes", str ".eslintrc", str ".prettierrc"]

/-- config.BinaryExts: extensions of files skipped as binary content. -/
def binaryExts : List Str :=
  [str ".bin", str ".exe", str ".dll", str ".so", str ".dylib",
   str ".jpg", str ".jpeg", str ".png", str ".gif", str ".bmp",
   str ".zip", str ".tar", str ".gz", str ".rar", str ".7z",
   str ".pdf", str ".doc", str ".docx", str ".xls", str ".xlsx"]

/-- finder.ShouldIgnore: whether a path is ignored during fuzzy search.
`fileName` below is filepath.Base(path). -/
def shouldIgnore (path : Str) (isDir : Bool) (cfg : Config) : Bool :=
  if cfg.noIgnore then false
  else
    let fileName := baseName path
    if !cfg.searchHidden && decide (1 < fileName.length) && (fileName.headD ' ' == '.') then
      true
    else if isDir then ignoreDirs.contains fileName
    else if ignoreExts.contains (fileExt fileName) then true
    else ignoreExts.any (fun pat => endsWith fileName pat)

/-- finder.FuzzyMatch: a potential path match with a similarity score. -/
structure FuzzyMatch where
  Path : Str
  Name : Str
  Score : Int
  IsDir : Bool
  Depth : Nat
  MatchType : Str
deriving DecidableEq

/-- The classification step performed for each directory entry by the
first loop of finder.FindRecursiveMatches (lines 179-237): skip ignored
entries, then classify as exact / substring / fuzzy, dropping fuzzy
candidates whose edit distance exceeds the length-derived threshold. -/
def classifyEntry (dirPath : Str) (targetName targetLower : Str) (currentDepth : Nat)
    (cfg : Config) (name : Str) (isDir : Bool) : Option FuzzyMatch :=
  let path := pathJoin dirPath name
  if shouldIgnore path isDir cfg then none
  else
    let nameLower := toLower name
    if nameLower = targetLower then
      some ⟨path, name, 0, isDir, currentDepth, str "exact"⟩
    else if strContains nameLower targetLower || strContains targetLower nameLower then
      let scoreFactor := goAbs ((nameLower.length : Int) - (targetLower.length : Int))
      some ⟨path, name, 1 + scoreFactor, isDir, currentDepth, str "substring"⟩
    else
      let score := calculateSimilarity nameLower targetLower
      let threshold0 := targetName.length * 2 / 3
      let threshold := if threshold0 < 3 then 3 else threshold0
      if score ≤ threshold then
        some ⟨path, name, (score : Int) + 2, isDir, currentDepth, str "fuzzy"⟩
      else none

/-- A model filesystem entry: a file, or a directory with its entries. -/
inductive FSTree where
  | file (name : Str)
  | dir (name : Str) (children : List FSTree)

/-- Name of a model filesystem entry (os.DirEntry.Name). -/
def FSTree.name : FSTree → Str
  | .file n => n
  | .dir n _ => n

/-- Directory flag of a model filesystem entry (os.DirEntry.IsDir). -/
def FSTree.isDir : FSTree → Bool
  | .file _ => false
  | .dir _ _ => true

mutual
/-- The body of finder.FindRecursiveMatches after its depth guard,
split per entry: returns the direct matches of the entries (first loop)
and the recursive submatches (second loop) as a pair. -/
def frmEntries (entries : List FSTree) (dirPath : Str) (targetName targetLower : Str)
    (currentDepth : Nat) (cfg : Config) : List FuzzyMatch × List FuzzyMatch :=
  match entries with
  | [] => ([], [])
  | e :: rest =>
      let pr := frmEntries rest dirPath targetName targetLower currentDepth cfg
      let d := match classifyEntry dirPath targetName targetLower currentDepth cfg e.name e.isDir with
               | some m => m :: pr.1
               | none => pr.1
      (d, frmSub e dirPath targetName targetLower currentDepth cfg ++ pr.2)

/-- The per-entry step of the second loop of finder.FindRecursiveMatches:
for a subdirectory that is not ignored, recurse with depth + 1.  The
callee's depth guard (currentDepth > cfg.SearchDepth, checked on entry in
the source) is hoisted here to make the recursion structural. -/
def frmSub (e : FSTree) (dirPath : Str) (targetName targetLower : Str)
    (currentDepth : Nat) (cfg : Config) : List FuzzyMatch :=
  match e with
  | .file _ => []
  | .dir name children =>
      if shouldIgnore (pathJoin dirPath name) true cfg then []
      else if (((currentDepth + 1 : Nat) : Int) > cfg.searchDepth) then []
      else
        let pr := frmEntries children (pathJoin dirPath name) targetName targetLower
          (currentDepth + 1) cfg
        pr.1 ++ pr.2
end

/-- finder.FindRecursiveMatches: all potential matches for `targetName`
among `entries` (the contents of directory `dirPath`) and their
subdirectories, with the source's depth guard at entry. -/
def findRecursiveMatches (dirPath : Str) (entries : List FSTree) (targetName : Str)
    (currentDepth : Nat) (cfg : Config) : List FuzzyMatch :=
  if ((currentDepth : Int) > cfg.searchDepth) then []
  else
    let pr := frmEntries entries dirPath targetName (toLower targetName) currentDepth cfg
    pr.1 ++ pr.2

/-- The comparator passed to sort.Slice in finder.FuzzyFindPath
(lines 90-95): ascending score, ties broken by ascending depth. -/
def matchLess (a b : FuzzyMatch) : Bool :=
  if a.Score ≠ b.Score then decide (a.Score < b.Score) else decide (a.Depth < b.Depth)

/-- The guarantee sort.Slice gives for one run on `input`: the `output`
slice is a permutation of the input ordered by the comparator (the sort
is not stable, so nothing more is guaranteed). -/
def IsSortSliceRun (input output : List FuzzyMatch) : Prop :=
  input.Perm output ∧ output.Pairwise (fun a b => matchLess b a = false)

/-- The (score, depth) ranking key of a match candidate. -/
def matchKey (m : FuzzyMatch) : Int × Nat := (m.Score, m.Depth)

/-- Outcome of the selection stage of finder.FuzzyFindPath. -/
inductive Resolution where
  | auto (path : Str)
  | interactive
  | noMatches
deriving DecidableEq

/-- The auto-select threshold of finder.FuzzyFindPath (lines 107-110). -/
def autoThreshold (targetName : Str) : Nat :=
  let t := targetName.length / 4
  if t < 2 then 2 else t

/-- The selection stage of finder.FuzzyFindPath (lines 84-87, 103-116):
no matches fails, a good-enough top candidate is auto-selected when the
flag is set, everything else goes to the interactive prompt. -/
def fuzzySelect (targetName : Str) (candidates : List FuzzyMatch) (cfg : Config) : Resolution :=
  match candidates with
  | [] => .noMatches
  | best :: _ =>
      if cfg.autoSelect then
        if best.Score ≤ (autoThreshold targetName : Int) then .auto best.Path
        else .interactive
      else .interactive

/-- processor.FileContent: a file's path and content. -/
structure FileContent where
  Path : Str
  Content : Str
deriving DecidableEq

/-- The error outcomes of processor.ProcessSingleFile. -/
inductive PError where
  | tooLarge
  | binaryFile
  | readFail
  | ctxDone
deriving DecidableEq

/-- What the filesystem answers for one file: its stat size and the
result of os.ReadFile (`none` models a read error). -/
structure FileState where
  size : Int
  readResult : Option Str
deriving DecidableEq

/-- The context-expiry schedule relevant to one ProcessSingleFile call:
whether ctx.Done is already closed at the first select (which has a
default branch), and whether ctx.Done wins the race at the emission
select. -/
structure CtxSchedule where
  doneBeforeRead : Bool
  doneAtEmit : Bool
deriving DecidableEq

/-- The schedule of a run whose deadline never fires. -/
def noCancel : CtxSchedule := ⟨false, false⟩

/-- Result of one ProcessSingleFile call: the records placed on the
results channel and the returned error (`none` is a nil return). -/
structure SFResult where
  emitted : List FileContent
  ret : Option PError
deriving DecidableEq

/-- processor.ProcessSingleFile (lines 54-91): size check, binary
extension check, then a read and an emission that both race against the
deadline. -/
def processSingleFile (path : Str) (info : FileState) (cfg : Config)
    (sched : CtxSchedule) : SFResult :=
  if info.size > cfg.maxFileSize then ⟨[], some .tooLarge⟩
  else
    let ext := toLower (fileExt (baseName path))
    if binaryExts.contains ext then ⟨[], some .binaryFile⟩
    else if sched.doneBeforeRead then ⟨[], some .ctxDone⟩
    else
      match info.readResult with
      | none => ⟨[], some .readFail⟩
      | some content =>
          if sched.doneAtEmit then ⟨[], some .ctxDone⟩
          else ⟨[⟨path, content⟩], none⟩

/-- The counter increments and emissions of one loop iteration. -/
structure StepResult where
  processedInc : Nat
  errorsInc : Nat
  emitted : List FileContent
deriving DecidableEq

/-- The body of the worker loop in processor.ProcessDirectory
(lines 110-128): re-stat the dequeued path (`none` models a stat error),
then run ProcessSingleFile, incrementing the error counter on any
non-nil return and the processed counter otherwise. -/
def workerStep (path : Str) (stat : Option FileState) (cfg : Config)
    (sched : CtxSchedule) : StepResult :=
  match stat with
  | none => ⟨0, 1, []⟩
  | some info =>
      let r := processSingleFile path info cfg sched
      match r.ret with
      | some _ => ⟨0, 1, r.emitted⟩
      | none => ⟨1, 0, r.emitted⟩

/-- One file path that passed the walker's ignore checks and was
enqueued on the worker queue, with its filesystem answers and deadline
schedule. -/
structure PathJob where
  path : Str
  stat : Option FileState
  sched : CtxSchedule
deriving DecidableEq

/-- Accumulation of the worker-step counter increments over the queue
of enqueued paths. -/
def workerFold (cfg : Config) : List PathJob → Nat × Nat → Nat × Nat
  | [], acc => acc
  | j :: rest, acc =>
      let r := workerStep j.path j.stat cfg j.sched
      workerFold cfg rest (acc.1 + r.processedInc, acc.2 + r.errorsInc)

/-- Total counter increments of processor.ProcessDirectory: the worker
steps for every enqueued path, plus one error when the walk itself
returned a non-cancellation error (lines 162-165).  The shared counters
are only ever changed by atomic increments, so the concurrent total is
this sum. -/
def dirRun (cfg : Config) (jobs : List PathJob) (walkOk : Bool) : Nat × Nat :=
  let w := workerFold cfg jobs (0, 0)
  if walkOk then w else (w.1, w.2 + 1)

/-- One top-level processor.ProcessPath invocation (lines 22-51): the
initial stat fails, or the path is a plain file handled inline, or it is
a directory handed to ProcessDirectory. -/
inductive Invocation where
  | statFailTop (path : Str)
  | fileTop (path : Str) (info : FileState) (sched : CtxSchedule)
  | dirTop (walkOk : Bool) (jobs : List PathJob)
deriving DecidableEq

/-- Counter increments of one ProcessPath invocation. -/
def invRun (cfg : Config) : Invocation → Nat × Nat
  | .statFailTop _ => (0, 1)
  | .fileTop path info sched =>
      match (processSingleFile path info cfg sched).ret with
      | some _ => (0, 1)
      | none => (1, 0)
  | .dirTop walkOk jobs => dirRun cfg jobs walkOk

/-- Accumulation of the per-invocation counter increments of a run. -/
def invFold (cfg : Config) : List Invocation → Nat × Nat → Nat × Nat
  | [], acc => acc
  | inv :: rest, acc =>
      let r := invRun cfg inv
      invFold cfg rest (acc.1 + r.1, acc.2 + r.2)

/-- Counter totals of a whole run: the paths are processed by
concurrent goroutines, every counter change is an atomic increment, so
the final totals are the sum of the per-invocation increments. -/
def fullRun (cfg : Config) (invs : List Invocation) : Nat × Nat :=
  invFold cfg invs (0, 0)

/-- Number of eligible file paths discovered by the walkers: the paths
that passed the ignore checks and were enqueued. -/
def eligibleCount (invs : List Invocation) : Nat :=
  (invs.map fun inv =>
    match inv with
    | .dirTop _ jobs => jobs.length
    | _ => 0).sum

/-- Number of direct single-file invocations of the run. -/
def directFileCount (invs : List Invocation) : Nat :=
  (invs.map fun inv =>
    match inv with
    | .fileTop _ _ _ => 1
    | _ => 0).sum

/-- A completed, non-cancelled invocation: the top-level path was
statted successfully, the deadline never fired, and the directory walk
(if any) finished without error. -/
def Invocation.completedNoCancel : Invocation → Bool
  | .statFailTop _ => false
  | .fileTop _ _ sched => sched == noCancel
  | .dirTop walkOk jobs => walkOk && jobs.all (fun j => j.sched == noCancel)

/-- The score/classification invariant of C8: score zero only for exact
matches, strictly positive score for substring and fuzzy matches. -/
def scoreTypeOk (m : FuzzyMatch) : Prop :=
  (m.Score = 0 → m.MatchType = str "exact") ∧
  ((m.MatchType = str "substring" ∨ m.MatchType = str "fuzzy") → 0 < m.Score)

/-- A concrete configuration with the source's default flag values. -/
def cfgDefault : Config :=
  { maxFileSize := 1048576, workers := 10, verbose := false, maxMatches := 15,
    searchDepth := 5, autoSelect := false, searchHidden := false, noIgnore := false }

/-- Concrete match candidates used to exhibit sorting counterexamples:
equal score and depth, different paths. -/
def mA : FuzzyMatch := ⟨str "a", str "a", 0, false, 0, str "exact"⟩

/-- Second candidate with the same ranking key as `mA`. -/
def mB : FuzzyMatch := ⟨str "b", str "b", 0, false, 0, str "exact"⟩

/-- Candidate with a ranking key distinct from `mA`. -/
def mC : FuzzyMatch := ⟨str "c", str "c", 1, false, 0, str "substring"⟩

/-- A concrete completed, non-cancelled run: one direct file plus one
directory with two enqueued paths (one of which is a binary reject). -/
def runExample : List Invocation :=
  [.fileTop (str "a.go") ⟨10, some (str "x")⟩ noCancel,
   .dirTop true
     [⟨str "b.txt", some ⟨5, some (str "y")⟩, noCancel⟩,
      ⟨str "c.exe", some ⟨5, some (str "z")⟩, noCancel⟩]]

theorem goMin_eq (a b c : Nat) : goMin a b c = min a (min b c) := by
  simp only [goMin]
  split <;> split <;> omega

theorem levSpec_nil_right : ∀ u : Str, levSpec u [] = u.length := by
  intro u
  cases u <;> simp [levSpec]

theorem levCost_le_one (x y : Char) : levCost x y ≤ 1 := by
  simp only [levCost]
  split <;> omega

theorem levCost_comm (x y : Char) : levCost x y = levCost y x := by
  simp only [levCost, eq_comm]

/-- levSpec of a string against itself is zero. -/
theorem levSpec_self : ∀ a : Str, levSpec a a = 0 := by
  intro a
  induction a with
  | nil => simp [levSpec]
  | cons x xs ih =>
      simp [levSpec, levCost, ih]

/-- levSpec is symmetric. -/
theorem levSpec_comm : ∀ a b : Str, levSpec a b = levSpec b a := by
  intro a b
  induction a, b using levSpec.induct with
  | case1 ys => simp [levSpec, levSpec_nil_right]
  | case2 x xs => simp [levSpec, levSpec_nil_right]
  | case3 x xs y ys ih1 ih2 ih3 =>
      simp only [levSpec, ih1, ih2, ih3, levCost_comm x y]
      omega

/-- levSpec is bounded by the length of the longer string. -/
theorem levSpec_le_max : ∀ a b : Str, levSpec a b ≤ max a.length b.length := by
  intro a b
  induction a, b using levSpec.induct with
  | case1 ys => simp [levSpec]
  | case2 x xs => simp [levSpec]
  | case3 x xs y ys ih1 ih2 ih3 =>
      have hc := levCost_le_one x y
      simp only [levSpec, List.length_cons]
      omega

theorem levSpec_nil_left (ys : Str) : levSpec [] ys = ys.length := by
  simp [levSpec]

theorem levSpec_cons_cons (x y : Char) (xs ys : Str) :
    levSpec (x :: xs) (y :: ys)
      = min (levSpec xs (y :: ys) + 1)
          (min (levSpec (x :: xs) ys + 1) (levSpec xs ys + levCost x y)) := by
  simp [levSpec]

theorem rowFrom_head (R p : Str) (t : Str) :
    rowFrom R p t = levSpec R p :: (rowFrom R p t).tail := by
  cases t <;> simp [rowFrom]

theorem nextRowGo_spec (c : Char) (R : Str) :
    ∀ (t p : Str),
      nextRowGo c (levSpec (c :: R) p) (rowFrom R p t) t = (rowFrom (c :: R) p t).tail := by
  intro t
  induction t with
  | nil => intro p; simp [rowFrom, nextRowGo]
  | cons ch rest ih =>
      intro p
      have hv : goMin (levSpec (c :: R) p + 1) (levSpec R (ch :: p) + 1)
          (levSpec R p + (if c = ch then 0 else 1)) = levSpec (c :: R) (ch :: p) := by
        rw [goMin_eq, levSpec_cons_cons]
        simp only [levCost]
        omega
      show nextRowGo c (levSpec (c :: R) p)
          (levSpec R p :: rowFrom R (ch :: p) rest) (ch :: rest)
        = (levSpec (c :: R) p :: rowFrom (c :: R) (ch :: p) rest).tail
      rw [rowFrom_head R (ch :: p) rest]
      simp only [nextRowGo, hv]
      rw [← rowFrom_head R (ch :: p) rest, ih (ch :: p)]
      simp only [List.tail_cons]
      exact (rowFrom_head (c :: R) (ch :: p) rest).symm

theorem nextRow_spec (c : Char) (R : Str) (s2 : Str) :
    nextRow (rowFrom R [] s2) c s2 R.length = rowFrom (c :: R) [] s2 := by
  have h0 : R.length + 1 = levSpec (c :: R) [] := by
    rw [levSpec_nil_right]; simp
  show (R.length + 1) :: nextRowGo c (R.length + 1) (rowFrom R [] s2) s2 = _
  rw [h0, nextRowGo_spec c R s2 []]
  exact (rowFrom_head (c :: R) [] s2).symm

theorem simLoop_spec (s2 : Str) :
    ∀ (cs R : Str), simLoop s2 (rowFrom R [] s2) cs R.length = rowFrom (cs.reverse ++ R) [] s2 := by
  intro cs
  induction cs with
  | nil => intro R; simp [simLoop]
  | cons c cs ih =>
      intro R
      show simLoop s2 (nextRow (rowFrom R [] s2) c s2 R.length) cs (R.length + 1) = _
      rw [nextRow_spec c R s2]
      have h := ih (c :: R)
      simp only [List.length_cons] at h
      rw [h]
      simp

theorem rowFrom_nil_eq : ∀ (t p : Str), rowFrom [] p t = initRow p.length (t.length + 1) := by
  intro t
  induction t with
  | nil => intro p; simp [rowFrom, initRow, levSpec]
  | cons ch rest ih =>
      intro p
      show levSpec [] p :: rowFrom [] (ch :: p) rest = _
      rw [ih (ch :: p)]
      simp [levSpec_nil_left, initRow]

theorem rowFrom_getD : ∀ (t R p : Str),
    (rowFrom R p t).getD t.length 0 = levSpec R (t.reverse ++ p) := by
  intro t
  induction t with
  | nil => intro R p; simp [rowFrom]
  | cons ch rest ih =>
      intro R p
      show (levSpec R p :: rowFrom R (ch :: p) rest).getD (rest.length + 1) 0 = _
      rw [List.getD_cons_succ, ih R (ch :: p)]
      simp

theorem calcSim_eq_rev (s1 s2 : Str) :
    calculateSimilarity s1 s2 = levSpec s1.reverse s2.reverse := by
  unfold calculateSimilarity
  by_cases h1 : s1.length = 0
  · have : s1 = [] := List.length_eq_zero.mp h1
    subst this
    simp [levSpec_nil_left]
  · by_cases h2 : s2.length = 0
    · have : s2 = [] := List.length_eq_zero.mp h2
      subst this
      simp [h1, levSpec_nil_right]
    · simp only [h1, h2, if_false]
      have hinit : initRow 0 (s2.length + 1) = rowFrom [] [] s2 := by
        rw [rowFrom_nil_eq s2 []]
        rfl
      rw [hinit]
      have hloop := simLoop_spec s2 s1 []
      simp only [List.length_nil, List.append_nil] at hloop
      rw [hloop, rowFrom_getD s2 s1.reverse []]
      simp

theorem levSpec_snoc (c e : Char) :
    ∀ xs ys : Str,
      levSpec (xs ++ [c]) (ys ++ [e])
        = min (levSpec xs (ys ++ [e]) + 1)
            (min (levSpec (xs ++ [c]) ys + 1) (levSpec xs ys + levCost c e)) := by
  intro xs
  induction xs with
  | nil =>
      intro ys
      induction ys with
      | nil =>
          simp only [List.nil_append]
          exact levSpec_cons_cons c e [] []
      | cons y ys ihy =>
          have e2 := ihy
          simp only [List.nil_append] at e2
          clear ihy
          simp only [List.nil_append, List.cons_append]
          rw [levSpec_cons_cons c y [] (ys ++ [e]), e2,
            levSpec_cons_cons c y [] ys,
            levSpec_nil_left (y :: (ys ++ [e])), levSpec_nil_left (ys ++ [e]),
            levSpec_nil_left (y :: ys), levSpec_nil_left ys]
          simp only [List.length_cons, List.length_append, List.length_singleton,
            List.length_nil]
          apply le_antisymm <;> simp only [le_min_iff, min_le_iff] <;> omega
  | cons x xs ihx =>
      intro ys
      induction ys with
      | nil =>
          have e2 := ihx []
          simp only [List.nil_append] at e2
          simp only [List.nil_append, List.cons_append]
          rw [levSpec_cons_cons x e (xs ++ [c]) [], e2, levSpec_cons_cons x e xs [],
            levSpec_nil_right (x :: (xs ++ [c])), levSpec_nil_right (xs ++ [c]),
            levSpec_nil_right (x :: xs), levSpec_nil_right xs]
          simp only [List.length_cons, List.length_append, List.length_singleton,
            List.length_nil]
          apply le_antisymm <;> simp only [le_min_iff, min_le_iff] <;> omega
      | cons y ys ihy =>
          have e2 := ihx (y :: ys)
          have e3 := ihx ys
          have e4 := ihy
          simp only [List.cons_append] at e2 e3 e4
          clear ihy
          simp only [List.cons_append]
          rw [levSpec_cons_cons x y (xs ++ [c]) (ys ++ [e]), e2, e4, e3,
            levSpec_cons_cons x y (xs ++ [c]) ys,
            levSpec_cons_cons x y xs (ys ++ [e]),
            levSpec_cons_cons x y xs ys]
          apply le_antisymm <;> simp only [le_min_iff, min_le_iff] <;> omega

theorem levSpec_rev : ∀ xs ys : Str, levSpec xs.reverse ys.reverse = levSpec xs ys := by
  intro xs ys
  induction xs, ys using levSpec.induct with
  | case1 ys => simp [levSpec_nil_left]
  | case2 x xs => simp [levSpec_nil_left, levSpec_nil_right]
  | case3 x xs y ys ih1 ih2 ih3 =>
      rw [List.reverse_cons, List.reverse_cons, levSpec_snoc x y xs.reverse ys.reverse]
      rw [show xs.reverse ++ [x] = (x :: xs).reverse from (List.reverse_cons x xs).symm]
      rw [show ys.reverse ++ [y] = (y :: ys).reverse from (List.reverse_cons y ys).symm]
      rw [ih1, ih2, ih3, levSpec_cons_cons]

theorem calcSim_eq_levSpec (s1 s2 : Str) : calculateSimilarity s1 s2 = levSpec s1 s2 := by
  rw [calcSim_eq_rev, levSpec_rev]

/-- C6: for all strings a and b the similarity scorer satisfies
Distance(a, a) = 0, Distance(a, b) = Distance(b, a) and
Distance("", s) = len(s), and its result equals the classic unit-cost
Levenshtein edit distance. -/
theorem c6_distance_is_classic_levenshtein :
    (∀ a : Str, calculateSimilarity a a = 0) ∧
    (∀ a b : Str, calculateSimilarity a b = calculateSimilarity b a) ∧
    (∀ s : Str, calculateSimilarity [] s = s.length) ∧
    (∀ a b : Str, calculateSimilarity a b = levSpec a b) := by
  refine ⟨?_, ?_, ?_, ?_⟩
  · intro a
    rw [calcSim_eq_levSpec, levSpec_self]
  · intro a b
    rw [calcSim_eq_levSpec, calcSim_eq_levSpec, levSpec_comm]
  · intro s
    simp [calculateSimilarity]
  · intro a b
    exact calcSim_eq_levSpec a b

/-- C10: the similarity scorer is bounded below by zero and above by the
length of the longer input string. -/
theorem c10_similarity_bounded : ∀ a b : Str,
    0 ≤ calculateSimilarity a b ∧ calculateSimilarity a b ≤ max a.length b.length := by
  intro a b
  refine ⟨Nat.zero_le _, ?_⟩
  rw [calcSim_eq_levSpec]
  exact levSpec_le_max a b

/-- C7: with the ignore-override flag set, ShouldIgnore returns false
for every path and directory flag. -/
theorem c7_override_ignores_nothing :
    ∀ (path : Str) (isDir : Bool) (cfg : Config),
      cfg.noIgnore = true → shouldIgnore path isDir cfg = false := by
  intro path isDir cfg h
  simp [shouldIgnore, h]

/-- Witness for C7 at a concrete ignored-by-default input. -/
theorem c7_override_ignores_nothing_witness :
    shouldIgnore (str "node_modules") true { cfgDefault with noIgnore := true } = false :=
  c7_override_ignores_nothing (str "node_modules") true _ rfl

theorem goAbs_nonneg (n : Int) : 0 ≤ goAbs n := by
  simp only [goAbs]
  split <;> omega

theorem ite_three_max (t : Nat) : (if t < 3 then 3 else t) = max 3 t := by
  rw [Nat.max_def]
  split <;> split <;> omega

theorem ite_two_max (t : Nat) : (if t < 2 then 2 else t) = max 2 t := by
  rw [Nat.max_def]
  split <;> split <;> omega

/-- C4: an entry that survives the ignore check and is neither an exact
nor a substring match is accepted exactly when the edit distance of the
lowercase names is at most max(3, len(target) * 2 / 3); accepted entries
score distance + 2 with classification "fuzzy", others are dropped. -/
theorem c4_fuzzy_acceptance_threshold :
    ∀ (dirPath targetName : Str) (currentDepth : Nat) (cfg : Config)
      (name : Str) (isDir : Bool),
      shouldIgnore (pathJoin dirPath name) isDir cfg = false →
      toLower name ≠ toLower targetName →
      strContains (toLower name) (toLower targetName) = false →
      strContains (toLower targetName) (toLower name) = false →
      (calculateSimilarity (toLower name) (toLower targetName)
          ≤ max 3 (targetName.length * 2 / 3) →
        classifyEntry dirPath targetName (toLower targetName) currentDepth cfg name isDir
          = some ⟨pathJoin dirPath name, name,
              (calculateSimilarity (toLower name) (toLower targetName) : Int) + 2,
              isDir, currentDepth, str "fuzzy"⟩) ∧
      (max 3 (targetName.length * 2 / 3)
          < calculateSimilarity (toLower name) (toLower targetName) →
        classifyEntry dirPath targetName (toLower targetName) currentDepth cfg name isDir
          = none) := by
  intro dirPath targetName currentDepth cfg name isDir h1 h2 h3 h4
  have key : classifyEntry dirPath targetName (toLower targetName) currentDepth cfg name isDir
      = if calculateSimilarity (toLower name) (toLower targetName)
            ≤ max 3 (targetName.length * 2 / 3)
        then some ⟨pathJoin dirPath name, name,
              (calculateSimilarity (toLower name) (toLower targetName) : Int) + 2,
              isDir, currentDepth, str "fuzzy"⟩
        else none := by
    simp only [classifyEntry, h1, h2, h3, h4, Bool.or_self, Bool.false_eq_true,
      if_false, ite_three_max]
  constructor
  · intro hle
    rw [key, if_pos hle]
  · intro hgt
    rw [key, if_neg (by omega)]

/-- Witness for C4 at a concrete accepted fuzzy candidate. -/
theorem c4_fuzzy_acceptance_threshold_witness :
    classifyEntry (str ".") (str "abc") (toLower (str "abc")) 0 cfgDefault (str "axc") false
      = some ⟨pathJoin (str ".") (str "axc"), str "axc",
          (calculateSimilarity (toLower (str "axc")) (toLower (str "abc")) : Int) + 2,
          false, 0, str "fuzzy"⟩ :=
  (c4_fuzzy_acceptance_threshold (str ".") (str "abc") 0 cfgDefault (str "axc") false
    (by decide) (by decide) (by decide) (by decide)).1 (by decide)

theorem classifyEntry_scoreTypeOk
    (dirPath targetName targetLower : Str) (d : Nat) (cfg : Config)
    (name : Str) (isDir : Bool) (m : FuzzyMatch)
    (h : classifyEntry dirPath targetName targetLower d cfg name isDir = some m) :
    scoreTypeOk m := by
  by_cases hig : shouldIgnore (pathJoin dirPath name) isDir cfg = true
  · simp [classifyEntry, hig] at h
  · by_cases heq : toLower name = targetLower
    · simp only [classifyEntry, hig, Bool.false_eq_true, if_false, heq, if_true,
        Option.some.injEq] at h
      subst h
      refine ⟨fun _ => rfl, fun hmt => ?_⟩
      rcases hmt with hx | hx
      · exact absurd (show (str "exact" : Str) = str "substring" from hx) (by decide)
      · exact absurd (show (str "exact" : Str) = str "fuzzy" from hx) (by decide)
    · by_cases hsub : (strContains (toLower name) targetLower
          || strContains targetLower (toLower name)) = true
      · simp only [classifyEntry, hig, Bool.false_eq_true, if_false, heq, hsub, if_true,
          Option.some.injEq] at h
        subst h
        have hb := goAbs_nonneg (((toLower name).length : Int) - (targetLower.length : Int))
        refine ⟨fun h0 => ?_, fun _ => ?_⟩
        · exfalso
          have h0i : (1 : Int) + goAbs (((toLower name).length : Int)
              - (targetLower.length : Int)) = 0 := h0
          omega
        · show (0 : Int) < 1 + goAbs (((toLower name).length : Int)
            - (targetLower.length : Int))
          omega
      · by_cases hs : calculateSimilarity (toLower name) targetLower
            ≤ (if targetName.length * 2 / 3 < 3 then 3 else targetName.length * 2 / 3)
        · simp only [classifyEntry, hig, Bool.false_eq_true, if_false, heq, hsub, hs,
            if_true, Option.some.injEq] at h
          subst h
          refine ⟨fun h0 => ?_, fun _ => ?_⟩
          · exfalso
            have h0i : ((calculateSimilarity (toLower name) targetLower : Int)) + 2 = 0 := h0
            omega
          · show (0 : Int) < (calculateSimilarity (toLower name) targetLower : Int) + 2
            omega
        · simp [classifyEntry, hig, heq, hsub, hs] at h

theorem frmEntries_scoreType :
    ∀ (entries : List FSTree) (dirPath targetName targetLower : Str) (d : Nat) (cfg : Config),
      ∀ m : FuzzyMatch,
        (m ∈ (frmEntries entries dirPath targetName targetLower d cfg).1 ∨
         m ∈ (frmEntries entries dirPath targetName targetLower d cfg).2) →
        scoreTypeOk m := by
  refine frmEntries.induct
    (fun entries dirPath targetName targetLower d cfg =>
      ∀ m : FuzzyMatch,
        (m ∈ (frmEntries entries dirPath targetName targetLower d cfg).1 ∨
         m ∈ (frmEntries entries dirPath targetName targetLower d cfg).2) →
        scoreTypeOk m)
    (fun e dirPath targetName targetLower d cfg =>
      ∀ m : FuzzyMatch, m ∈ frmSub e dirPath targetName targetLower d cfg → scoreTypeOk m)
    ?_ ?_ ?_ ?_ ?_ ?_
  · intro dirPath tn tl d cfg n m hm
    simp [frmSub] at hm
  · intro dirPath tn tl d cfg n children hig m hm
    simp [frmSub, hig] at hm
  · intro dirPath tn tl d cfg n children hig hd m hm
    simp [frmSub, hig] at hm
    push_cast at hd
    omega
  · intro dirPath tn tl d cfg n children hig hd ih m hm
    simp [frmSub, hig] at hm
    exact ih m hm.2
  · intro dirPath tn tl d cfg m hm
    simp [frmEntries] at hm
  · intro dirPath tn tl d cfg e rest ih1 ih2 m hm
    rcases hm with hm | hm
    · cases hc : classifyEntry dirPath tn tl d cfg e.name e.isDir with
      | none =>
          simp only [frmEntries, hc] at hm
          exact ih1 m (Or.inl hm)
      | some m0 =>
          simp only [frmEntries, hc] at hm
          rcases List.mem_cons.mp hm with he | hm2
          · exact he ▸ classifyEntry_scoreTypeOk dirPath tn tl d cfg e.name e.isDir m0 hc
          · exact ih1 m (Or.inl hm2)
    · simp only [frmEntries] at hm
      rcases List.mem_append.mp hm with hm | hm
      · exact ih2 m hm
      · exact ih1 m (Or.inr hm)

/-- C8: every candidate the resolver produces with score 0 is
classified "exact", and substring or fuzzy candidates always carry a
strictly positive score. -/
theorem c8_score_zero_is_exact :
    ∀ (dirPath : Str) (entries : List FSTree) (targetName : Str) (d : Nat) (cfg : Config)
      (m : FuzzyMatch),
      m ∈ findRecursiveMatches dirPath entries targetName d cfg →
      (m.Score = 0 → m.MatchType = str "exact") ∧
      ((m.MatchType = str "substring" ∨ m.MatchType = str "fuzzy") → 0 < m.Score) := by
  intro dirPath entries tn d cfg m hm
  simp only [findRecursiveMatches] at hm
  split_ifs at hm with hd
  · simp at hm
  · exact frmEntries_scoreType entries dirPath tn (toLower tn) d cfg m (List.mem_append.mp hm)

/-- Witness for C8: a concrete exact match produced by the resolver. -/
theorem c8_score_zero_is_exact_witness :
    ((⟨str "./abc", str "abc", 0, false, 0, str "exact"⟩ : FuzzyMatch).Score = 0 →
      (⟨str "./abc", str "abc", 0, false, 0, str "exact"⟩ : FuzzyMatch).MatchType
        = str "exact") ∧
    (((⟨str "./abc", str "abc", 0, false, 0, str "exact"⟩ : FuzzyMatch).MatchType
          = str "substring" ∨
        (⟨str "./abc", str "abc", 0, false, 0, str "exact"⟩ : FuzzyMatch).MatchType
          = str "fuzzy") →
      0 < (⟨str "./abc", str "abc", 0, false, 0, str "exact"⟩ : FuzzyMatch).Score) :=
  c8_score_zero_is_exact (str ".") [FSTree.file (str "abc")] (str "abc") 0 cfgDefault
    ⟨str "./abc", str "abc", 0, false, 0, str "exact"⟩ (by decide)

/-- C5: with auto-select enabled and a non-empty candidate list, the
resolver returns the top-ranked candidate without prompting exactly
when its score is at most max(2, len(target) / 4). -/
theorem c5_auto_select_iff :
    ∀ (targetName : Str) (best : FuzzyMatch) (rest : List FuzzyMatch) (cfg : Config),
      cfg.autoSelect = true →
      (fuzzySelect targetName (best :: rest) cfg = .auto best.Path ↔
        best.Score ≤ ((max 2 (targetName.length / 4) : Nat) : Int)) := by
  intro targetName best rest cfg h
  have ht : autoThreshold targetName = max 2 (targetName.length / 4) := by
    simp only [autoThreshold]
    exact ite_two_max _
  simp only [fuzzySelect, h, if_true, ht]
  split
  case isTrue hcond => exact iff_of_true rfl hcond
  case isFalse hcond =>
    constructor
    · intro hx
      exact absurd hx (by simp)
    · intro hle
      exact absurd hle hcond

/-- Witness for C5: a concrete auto-selected resolution. -/
theorem c5_auto_select_iff_witness :
    fuzzySelect (str "abc") [mA] { cfgDefault with autoSelect := true } = .auto mA.Path :=
  (c5_auto_select_iff (str "abc") mA [] { cfgDefault with autoSelect := true } rfl).mpr
    (by decide)

theorem matchLess_asymm (a b : FuzzyMatch) :
    matchLess a b = true → matchLess b a = true → False := by
  intro h1 h2
  simp only [matchLess] at h1 h2
  split_ifs at h1 h2 with hx hy <;>
    simp only [decide_eq_true_eq] at h1 h2 <;> omega

theorem matchLess_of_le_ne (a b : FuzzyMatch) :
    matchLess b a = false → matchKey a ≠ matchKey b → matchLess a b = true := by
  intro h1 h2
  simp only [matchKey, Ne, Prod.mk.injEq, not_and] at h2
  simp only [matchLess] at h1 ⊢
  split_ifs at h1 ⊢ with hx hy <;>
    simp only [decide_eq_true_eq, decide_eq_false_iff_not] at h1 ⊢ <;> omega

/-- C2 counterexample: two candidates with equal score and depth admit
two different valid sort.Slice outputs for the same candidate multiset,
so the ranking is not a function of the candidate set alone. -/
theorem c2_sort_not_permutation_invariant :
    ¬ (∀ i1 i2 o1 o2 : List FuzzyMatch,
        i1.Perm i2 → IsSortSliceRun i1 o1 → IsSortSliceRun i2 o2 → o1 = o2) := by
  intro hclaim
  have h1 : IsSortSliceRun [mA, mB] [mA, mB] := ⟨List.Perm.refl _, by decide⟩
  have h2 : IsSortSliceRun [mA, mB] [mB, mA] := ⟨List.Perm.swap mB mA [], by decide⟩
  have h3 := hclaim [mA, mB] [mA, mB] [mA, mB] [mB, mA] (List.Perm.refl _) h1 h2
  exact absurd h3 (by decide)

/-- C2 amended: when no two candidates share both score and depth, any
two sort.Slice outputs over permutations of the same candidate set are
equal. -/
theorem c2_sort_deterministic_distinct_keys :
    ∀ i1 i2 o1 o2 : List FuzzyMatch,
      i1.Perm i2 →
      i1.Pairwise (fun a b => matchKey a ≠ matchKey b) →
      IsSortSliceRun i1 o1 → IsSortSliceRun i2 o2 → o1 = o2 := by
  intro i1 i2 o1 o2 hperm hkeys hr1 hr2
  obtain ⟨hp1, hs1⟩ := hr1
  obtain ⟨hp2, hs2⟩ := hr2
  have ho : o1.Perm o2 := (hp1.symm.trans hperm).trans hp2
  have hk1 : o1.Pairwise (fun a b => matchKey a ≠ matchKey b) :=
    (hp1.pairwise_iff (fun h => Ne.symm h)).mp hkeys
  have hk2 : o2.Pairwise (fun a b => matchKey a ≠ matchKey b) :=
    (hp2.pairwise_iff (fun h => Ne.symm h)).mp
      ((hperm.pairwise_iff (fun h => Ne.symm h)).mp hkeys)
  have hl1 : o1.Pairwise (fun a b => matchLess a b = true) :=
    (hs1.and hk1).imp (fun h => matchLess_of_le_ne _ _ h.1 h.2)
  have hl2 : o2.Pairwise (fun a b => matchLess a b = true) :=
    (hs2.and hk2).imp (fun h => matchLess_of_le_ne _ _ h.1 h.2)
  haveI : IsAntisymm FuzzyMatch (fun a b => matchLess a b = true) :=
    ⟨fun a b hab hba => (matchLess_asymm a b hab hba).elim⟩
  exact List.eq_of_perm_of_sorted ho hl1 hl2

/-- Witness for the amended C2 at a concrete distinct-key candidate
list. -/
theorem c2_sort_deterministic_distinct_keys_witness :
    ([mA, mC] : List FuzzyMatch) = [mA, mC] :=
  c2_sort_deterministic_distinct_keys [mA, mC] [mA, mC] [mA, mC] [mA, mC]
    (List.Perm.refl _) (by decide)
    ⟨List.Perm.refl _, by decide⟩ ⟨List.Perm.refl _, by decide⟩

theorem psf_nil_emits_one (path : Str) (info : FileState) (cfg : Config)
    (sched : CtxSchedule) :
    (processSingleFile path info cfg sched).ret = none →
    (processSingleFile path info cfg sched).emitted.length = 1 := by
  rcases info with ⟨size, rr⟩
  cases rr with
  | none => simp only [processSingleFile]; split_ifs <;> simp
  | some content => simp only [processSingleFile]; split_ifs <;> simp

theorem psf_error_emits_nothing (path : Str) (info : FileState) (cfg : Config)
    (sched : CtxSchedule) :
    (processSingleFile path info cfg sched).ret ≠ none →
    (processSingleFile path info cfg sched).emitted = [] := by
  rcases info with ⟨size, rr⟩
  cases rr with
  | none => simp only [processSingleFile]; split_ifs <;> simp
  | some content => simp only [processSingleFile]; split_ifs <;> simp

/-- C9: ProcessSingleFile emits exactly one record on a nil return and
no record on any error return. -/
theorem c9_emission_iff_nil_return :
    ∀ (path : Str) (info : FileState) (cfg : Config) (sched : CtxSchedule),
      ((processSingleFile path info cfg sched).ret = none →
        (processSingleFile path info cfg sched).emitted.length = 1) ∧
      ((processSingleFile path info cfg sched).ret ≠ none →
        (processSingleFile path info cfg sched).emitted = []) :=
  fun path info cfg sched =>
    ⟨psf_nil_emits_one path info cfg sched, psf_error_emits_nothing path info cfg sched⟩

/-- Witness for C9 at a concrete successful read. -/
theorem c9_emission_iff_nil_return_witness :
    (processSingleFile (str "a.txt") ⟨3, some (str "hi")⟩ cfgDefault noCancel).emitted.length
      = 1 :=
  (c9_emission_iff_nil_return (str "a.txt") ⟨3, some (str "hi")⟩ cfgDefault noCancel).1
    (by decide)

/-- C1 counterexample: with an expired deadline the record is dropped
and the outcome is the context error, but the worker loop increments
the shared error counter, contradicting the claim that cancellation
paths leave it unchanged. -/
theorem c1_cancellation_counts_as_error_counterexample :
    (processSingleFile (str "b.go") ⟨10, some (str "x")⟩ cfgDefault ⟨true, false⟩).ret
        = some .ctxDone ∧
    (processSingleFile (str "b.go") ⟨10, some (str "x")⟩ cfgDefault ⟨true, false⟩).emitted
        = [] ∧
    (workerStep (str "b.go") (some ⟨10, some (str "x")⟩) cfgDefault ⟨true, false⟩).errorsInc
        = 1 := by
  decide

/-- C1 amended: when the deadline fires during a worker's handling of a
file, the record is dropped and the outcome is a cancellation, and the
worker increments the shared error counter by one (it is not left
unchanged). -/
theorem c1_cancellation_increments_error_counter :
    ∀ (path : Str) (info : FileState) (cfg : Config) (sched : CtxSchedule),
      (processSingleFile path info cfg sched).ret = some .ctxDone →
      (processSingleFile path info cfg sched).emitted = [] ∧
      (workerStep path (some info) cfg sched).processedInc = 0 ∧
      (workerStep path (some info) cfg sched).errorsInc = 1 := by
  intro path info cfg sched h
  refine ⟨psf_error_emits_nothing path info cfg sched (by rw [h]; simp), ?_, ?_⟩ <;>
    simp [workerStep, h]

/-- Witness for the amended C1 at a concrete lost emission race. -/
theorem c1_cancellation_increments_error_counter_witness :
    (processSingleFile (str "c.md") ⟨5, some (str "y")⟩ cfgDefault ⟨false, true⟩).emitted
        = [] ∧
    (workerStep (str "c.md") (some ⟨5, some (str "y")⟩) cfgDefault ⟨false, true⟩).processedInc
        = 0 ∧
    (workerStep (str "c.md") (some ⟨5, some (str "y")⟩) cfgDefault ⟨false, true⟩).errorsInc
        = 1 :=
  c1_cancellation_increments_error_counter (str "c.md") ⟨5, some (str "y")⟩ cfgDefault
    ⟨false, true⟩ (by decide)

theorem workerStep_sum (path : Str) (stat : Option FileState) (cfg : Config)
    (sched : CtxSchedule) :
    (workerStep path stat cfg sched).processedInc
      + (workerStep path stat cfg sched).errorsInc = 1 := by
  cases stat with
  | none => rfl
  | some info =>
      cases hr : (processSingleFile path info cfg sched).ret <;> simp [workerStep, hr]

theorem workerFold_sum (cfg : Config) :
    ∀ (jobs : List PathJob) (p e : Nat),
      (workerFold cfg jobs (p, e)).1 + (workerFold cfg jobs (p, e)).2
        = p + e + jobs.length := by
  intro jobs
  induction jobs with
  | nil => intro p e; simp [workerFold]
  | cons j rest ih =>
      intro p e
      have hs := workerStep_sum j.path j.stat cfg j.sched
      simp only [workerFold]
      rw [ih]
      simp only [List.length_cons]
      omega

theorem dirRun_sum (cfg : Config) (jobs : List PathJob) :
    (dirRun cfg jobs true).1 + (dirRun cfg jobs true).2 = jobs.length := by
  simp only [dirRun, if_true]
  have := workerFold_sum cfg jobs 0 0
  omega

theorem invFold_sum (cfg : Config) :
    ∀ (invs : List Invocation) (p e : Nat),
      (∀ inv ∈ invs, inv.completedNoCancel = true) →
      (invFold cfg invs (p, e)).1 + (invFold cfg invs (p, e)).2
        = p + e + eligibleCount invs + directFileCount invs := by
  intro invs
  induction invs with
  | nil =>
      intro p e _
      simp [invFold, eligibleCount, directFileCount]
  | cons inv rest ih =>
      intro p e hall
      have hhead := hall inv (List.mem_cons_self _ _)
      have htail : ∀ i ∈ rest, i.completedNoCancel = true :=
        fun i hi => hall i (List.mem_cons_of_mem _ hi)
      cases inv with
      | statFailTop path =>
          simp [Invocation.completedNoCancel] at hhead
      | fileTop path info sched =>
          cases hr : (processSingleFile path info cfg sched).ret with
          | none =>
              simp only [invFold, invRun, hr]
              rw [ih _ _ htail]
              simp only [eligibleCount, directFileCount, List.map_cons, List.sum_cons]
              omega
          | some err =>
              simp only [invFold, invRun, hr]
              rw [ih _ _ htail]
              simp only [eligibleCount, directFileCount, List.map_cons, List.sum_cons]
              omega
      | dirTop walkOk jobs =>
          have hw : walkOk = true := by
            simp only [Invocation.completedNoCancel, Bool.and_eq_true] at hhead
            exact hhead.1
          subst hw
          have hd := dirRun_sum cfg jobs
          simp only [invFold, invRun]
          rw [ih _ _ htail]
          simp only [eligibleCount, directFileCount, List.map_cons, List.sum_cons]
          omega

/-- C3: after a completed, non-cancelled run, the sum of the processed
counter and the error counter equals the number of eligible enqueued
file paths plus the number of direct single-file invocations. -/
theorem c3_counter_sum_invariant :
    ∀ (cfg : Config) (invs : List Invocation),
      (∀ inv ∈ invs, inv.completedNoCancel = true) →
      (fullRun cfg invs).1 + (fullRun cfg invs).2
        = eligibleCount invs + directFileCount invs := by
  intro cfg invs h
  have hsum := invFold_sum cfg invs 0 0 h
  simpa [fullRun] using hsum

/-- Witness for C3 at a concrete completed run. -/
theorem c3_counter_sum_invariant_witness :
    (fullRun cfgDefault runExample).1 + (fullRun cfgDefault runExample).2
      = eligibleCount runExample + directFileCount runExample :=
  c3_counter_sum_invariant cfgDefault runExample (by decide)
